import Mathlib

/-!
Shallow embedding of the compositing and caching engine of the `zunda`/`movis`
repository (`src/zunda/layer/composition.py`, together with the layer protocol
of `src/movis/layer/protocol.py`), and proofs of the frozen claims about it.

Conventions of the embedding:
* Python `float` times, durations, offsets, scales, opacities and coordinates
  are modelled as exact rationals `ℚ`; the code only subtracts, compares and
  rounds them.
* Python hashable cache keys (nested tuples of floats, strings, `None` and
  enum tags) are modelled by the inductive `PyKey`.
* `numpy` RGBA `uint8` buffers are modelled by `Frame`: a height, a width and
  a row-major list of RGBA quadruples of naturals.
* `cachetools.LRUCache` is modelled by `LRUCache`: a bound plus an association
  list kept in most-recently-used-first order.
* Stateful methods of `Composition` (they mutate `self.cache`) become
  functions that take and return the `Composition` record.
-/

namespace Zunda

/-- A Python hashable value as the engine uses it for cache keys: rationals
(floats), strings, `None`, the two `CacheType` enum tags, and tuples built as
cons lists. -/
inductive PyKey where
  | rat (q : ℚ)
  | str (s : String)
  | pynone
  | compositionTag
  | layerTag
  | nil
  | cons (hd tl : PyKey)
  deriving DecidableEq, Repr

/-- A Python tuple of hashable values. -/
def PyKey.tup (ks : List PyKey) : PyKey := ks.foldr PyKey.cons PyKey.nil

/-- One RGBA pixel: four `uint8` channels. -/
abbrev Pixel : Type := ℕ × ℕ × ℕ × ℕ

/-- An RGBA image buffer of shape `(h, w, 4)`: `data` lists the rows. -/
structure Frame where
  h : ℕ
  w : ℕ
  data : List (List Pixel)
  deriving DecidableEq, Repr

/-- The buffer `np.zeros((h, w, 4), dtype=np.uint8)`: fully transparent. -/
def zerosFrame (h w : ℕ) : Frame :=
  ⟨h, w, List.replicate h (List.replicate w (0, 0, 0, 0))⟩

/-- The pixel of `f` at row `i`, column `j` (transparent black off the grid). -/
def Frame.pixelAt (f : Frame) (i j : ℕ) : Pixel :=
  (f.data.getD i []).getD j (0, 0, 0, 0)

/-- Python 3 `round`: round half to even, as `round` is used by `composite`
on scaled sizes and on paint positions. -/
def pyRound (q : ℚ) : ℤ :=
  let fl : ℤ := ⌊q⌋
  let frac : ℚ := q - fl
  if frac < 1 / 2 then fl
  else if 1 / 2 < frac then fl + 1
  else if 2 ∣ fl then fl else fl + 1

/-- Clamp a rational to a `uint8` channel value. -/
def clampByte (q : ℚ) : ℕ := min 255 (max 0 (pyRound q)).toNat

/-- The blend modes of `zunda.imgproc.BlendingMode`; the engine and the spec
only require NORMAL. -/
inductive BlendingMode where
  | normal
  deriving DecidableEq, Repr

/-- Modelled from the spec: the per-pixel straight-alpha "over" operator of
`zunda.imgproc.alpha_composite` (the module is not under `src/`), with
`opacity` as a global multiplier on the foreground alpha (spec section 4.3,
step 7). -/
def blendPixel (bg fg : Pixel) (opacity : ℚ) (_mode : BlendingMode) : Pixel :=
  let fa : ℚ := (fg.2.2.2 : ℚ) * opacity / 255
  let ba : ℚ := (bg.2.2.2 : ℚ) / 255
  let outA : ℚ := fa + ba * (1 - fa)
  if outA = 0 then (0, 0, 0, 0)
  else
    let mix : ℕ → ℕ → ℕ := fun f b =>
      clampByte (((f : ℚ) * fa + (b : ℚ) * ba * (1 - fa)) / outA)
    (mix fg.1 bg.1, mix fg.2.1 bg.2.1, mix fg.2.2.1 bg.2.2.1,
      clampByte (outA * 255))

/-- Modelled from the spec: `zunda.imgproc.alpha_composite` (not under
`src/`): paint `fg` over `bg` with its top-left corner at `position`,
clipping against the background's extent, blending each covered pixel. -/
def alphaComposite (bg fg : Frame) (position : ℤ × ℤ) (opacity : ℚ)
    (mode : BlendingMode) : Frame :=
  ⟨bg.h, bg.w,
    (List.range bg.h).map fun (i : ℕ) =>
      (List.range bg.w).map fun (j : ℕ) =>
        let fi : ℤ := (i : ℤ) - position.2
        let fj : ℤ := (j : ℤ) - position.1
        if 0 ≤ fi ∧ fi < (fg.h : ℤ) ∧ 0 ≤ fj ∧ fj < (fg.w : ℤ) then
          blendPixel (bg.pixelAt i j) (fg.pixelAt fi.toNat fj.toNat) opacity mode
        else bg.pixelAt i j⟩

/-- Modelled from the spec: `zunda.imgproc.resize` (not under `src/`):
nearest-neighbour resampling to the scaled size (spec section 4.2). -/
def resizeImage (image : Frame) (scale : ℚ × ℚ) : Frame :=
  let h2 : ℕ := (pyRound ((image.h : ℚ) * scale.2)).toNat
  let w2 : ℕ := (pyRound ((image.w : ℚ) * scale.1)).toNat
  ⟨h2, w2,
    (List.range h2).map fun i =>
      (List.range w2).map fun j =>
        image.pixelAt (i * image.h / h2) (j * image.w / w2)⟩

/-- Modelled from the spec: a resolved `zunda.transform.Transform` value at
one time: position, scale, anchor point and opacity (spec section 3). -/
structure TransformValue where
  position : ℚ × ℚ
  scale : ℚ × ℚ
  anchor_point : ℚ × ℚ
  opacity : ℚ

/-- Modelled from the spec: `zunda.transform.Transform` (not under `src/`), a
pure function of time resolving to a `TransformValue`. -/
structure Transform where
  get_current_value : ℚ → TransformValue

/-- The default Transform `add_layer` builds, `Transform(position=p)`:
constant, centered at `p`, unit scale, zero anchor, full opacity. -/
def Transform.ofPosition (p : ℚ × ℚ) : Transform :=
  ⟨fun _ => ⟨p, (1, 1), (0, 0), 1⟩⟩

/-- The layer protocol of `src/movis/layer/protocol.py`: a render function,
with the protocol's default `duration` (`1e6`) and default `get_key` (the
time itself). -/
structure Layer where
  render : ℚ → Option Frame
  duration : ℚ := 1000000
  get_key : ℚ → PyKey := fun t => PyKey.rat t

/-- Modelled from the spec: `zunda.layer.component.Component` (not under
`src/`): a named Layer with a Transform, an offset, an active window, a
visibility flag and a blend mode (spec section 3). -/
structure Component where
  name : String
  layer : Layer
  transform : Transform
  offset : ℚ
  start_time : ℚ
  end_time : ℚ
  visible : Bool
  blending_mode : BlendingMode

/-- Modelled from the spec: rendering a Component at a local time delegates to
its Layer (spec section 4.3, step 2). -/
def Component.call (c : Component) (layer_time : ℚ) : Option Frame :=
  c.layer.render layer_time

/-- Modelled from the spec: a Component's cache key at a local time is its
Layer's cache key there (spec sections 3 and 4.1). -/
def Component.get_key (c : Component) (layer_time : ℚ) : PyKey :=
  c.layer.get_key layer_time

/-- `cachetools.LRUCache`: a size bound and the entries, most recently used
first. -/
structure LRUCache where
  maxsize : ℕ
  items : List (PyKey × Frame)
  deriving DecidableEq, Repr

/-- Python `key in cache` (`Cache.__contains__`): membership, no reordering. -/
def LRUCache.contains (c : LRUCache) (k : PyKey) : Bool :=
  c.items.any fun e => e.1 = k

/-- The value stored under `k`, ignoring recency. -/
def LRUCache.lookup (c : LRUCache) (k : PyKey) : Option Frame :=
  (c.items.find? fun e => e.1 = k).map Prod.snd

/-- Python `cache[key]` (`LRUCache.__getitem__`): the stored value together
with the cache after the entry moved to most-recently-used; `none` on a
missing key. -/
def LRUCache.getTouch (c : LRUCache) (k : PyKey) : Option (Frame × LRUCache) :=
  match c.items.find? fun e => e.1 = k with
  | none => none
  | some e => some (e.2, ⟨c.maxsize, e :: c.items.eraseP fun e' => e'.1 = k⟩)

/-- Python `cache[key] = value` (`LRUCache.__setitem__`): update an existing
key in place (marking it most recent), else insert, evicting the
least-recently-used entry when the cache is full. -/
def LRUCache.insert (c : LRUCache) (k : PyKey) (v : Frame) : LRUCache :=
  if c.items.any (fun e => e.1 = k) then
    ⟨c.maxsize, (k, v) :: c.items.eraseP fun e => e.1 = k⟩
  else if c.items.length < c.maxsize then
    ⟨c.maxsize, (k, v) :: c.items⟩
  else
    ⟨c.maxsize, (k, v) :: c.items.dropLast⟩

/-- The Python exceptions the ported methods can raise. -/
inductive PyErr where
  | keyError (msg : String)
  | stopIteration
  | indexError
  | assertionError
  deriving DecidableEq, Repr

/-- A Python `dict` as an insertion-ordered association list:
`d[k] = v` overwrites in place or appends. -/
def dictInsert (d : List (String × Component)) (k : String) (v : Component) :
    List (String × Component) :=
  if d.any (fun e => e.1 = k) then
    d.map fun e => if e.1 = k then (k, v) else e
  else d ++ [(k, v)]

/-- Python `d[k]` as an option. -/
def dictLookup (d : List (String × Component)) (k : String) : Option Component :=
  (d.find? fun e => e.1 = k).map Prod.snd

/-- Python `k in d`. -/
def dictContains (d : List (String × Component)) (k : String) : Bool :=
  d.any fun e => e.1 = k

/-- Python `d.pop(k)`, the removal part: drop the entry of key `k`. -/
def dictErase (d : List (String × Component)) (k : String) :
    List (String × Component) :=
  d.eraseP fun e => e.1 = k

/-- `zunda.layer.composition.Composition`: the ordered Components, the
name-to-Component dict, the frame size `(width, height)`, the duration, and
the LRU render cache. -/
structure Composition where
  layers : List Component
  name_to_layer : List (String × Component)
  size : ℕ × ℕ
  duration : ℚ
  cache : LRUCache

/-- `Composition.__init__`: no layers, an empty dict, and an LRU cache of
capacity 128. -/
def Composition.init (size : ℕ × ℕ) (duration : ℚ) : Composition :=
  ⟨[], [], size, duration, ⟨128, []⟩⟩

/-- `Composition.get_key`: the tuple `(CacheType.COMPOSITION, k_0, ...)`
with `None` for a Component outside its window at `time`, else the
Component's key at the local time. -/
def Composition.get_key (s : Composition) (time : ℚ) : PyKey :=
  PyKey.tup (PyKey.compositionTag ::
    s.layers.map fun c =>
      let layer_time := time - c.offset
      if layer_time < c.start_time ∨ c.end_time ≤ layer_time then PyKey.pynone
      else c.get_key layer_time)

/-- Python `==` between a `str` and a `Component` object: neither defines a
cross-type equality, so it is always `False`. `add_layer`'s guard
`if name in self.layers:` tests exactly this against every element of the
Component list. -/
def pyStrEqComponent (_ : String) (_ : Component) : Bool := false

/-- `Composition.add_layer`, ported line by line: derive the name, run the
(never-true) duplicate guard over `self.layers`, derive `end_time` and
`transform`, build the Component, append it and index it. -/
def Composition.add_layer (s : Composition) (layer : Layer)
    (name : Option String := none) (transform : Option Transform := none)
    (offset : ℚ := 0) (start_time : ℚ := 0) (end_time : Option ℚ := none)
    (visible : Bool := true) (blending_mode : BlendingMode := .normal) :
    Except PyErr (Component × Composition) :=
  let name := name.getD ("layer_" ++ toString s.layers.length)
  if s.layers.any (pyStrEqComponent name) then
    Except.error (.keyError ("Layer with name " ++ name ++ " already exists"))
  else
    let end_time := end_time.getD layer.duration
    let transform := transform.getD
      (Transform.ofPosition ((s.size.1 : ℚ) / 2, (s.size.2 : ℚ) / 2))
    let component : Component :=
      ⟨name, layer, transform, offset, start_time, end_time, visible, blending_mode⟩
    Except.ok (component,
      { s with
        layers := s.layers ++ [component]
        name_to_layer := dictInsert s.name_to_layer name component })

/-- `Composition.pop_layer`: `KeyError` when the name is not in the dict, else
drop the first Component of that name from the list (`next` would raise
`StopIteration` if the list had none) and pop the dict entry. -/
def Composition.pop_layer (s : Composition) (name : String) :
    Except PyErr (Component × Composition) :=
  if dictContains s.name_to_layer name = false then
    Except.error (.keyError ("Layer with name " ++ name ++ " does not exist"))
  else
    match s.layers.findIdx? (fun c => c.name = name) with
    | none => Except.error .stopIteration
    | some index =>
      match dictLookup s.name_to_layer name with
      | none => Except.error .stopIteration
      | some component =>
        Except.ok (component,
          { s with
            layers := s.layers.eraseIdx index
            name_to_layer := dictErase s.name_to_layer name })

/-- Python `==` between the tuple `scale` and the float `1.0`: a tuple never
equals a float, so it is always `False`. `_get_or_resize`'s shortcut
`if scale == 1.0:` tests exactly this. -/
def pyScaleEqOne (_ : ℚ × ℚ) : Bool := false

/-- The `(CacheType.LAYER, component.name, layer_state, scale)` cache key of
`_get_or_resize`. -/
def layerKey (name : String) (layer_state : PyKey) (scale : ℚ × ℚ) : PyKey :=
  PyKey.tup [PyKey.layerTag, PyKey.str name, layer_state,
    PyKey.tup [PyKey.rat scale.1, PyKey.rat scale.2]]

/-- `Composition._get_or_resize`: the (never-true) `scale == 1.0` shortcut,
then the shared cache keyed by `(LAYER, name, state, scale)`, resizing and
inserting on a miss. -/
def Composition.get_or_resize (s : Composition) (component : Component)
    (layer_time : ℚ) (image : Frame) (scale : ℚ × ℚ) : Frame × Composition :=
  if pyScaleEqOne scale then (image, s)
  else
    let layer_state := component.get_key layer_time
    let key := layerKey component.name layer_state scale
    match s.cache.getTouch key with
    | some (v, cache2) => (v, { s with cache := cache2 })
    | none =>
      let resized := resizeImage image scale
      (resized, { s with cache := s.cache.insert key resized })

/-- `Composition.composite`: the active-window guard, the `None`-frame guard,
the transform resolution, the zero-size guard, the resize cache, and the
alpha blend at the rounded paint position. -/
def Composition.composite (s : Composition) (bg_image : Frame)
    (component : Component) (time : ℚ) : Frame × Composition :=
  let layer_time := time - component.offset
  if layer_time < component.start_time ∨ component.end_time ≤ layer_time then
    (bg_image, s)
  else
    match component.call layer_time with
    | none => (bg_image, s)
    | some fg_image =>
      let h := fg_image.h
      let w := fg_image.w
      let p := component.transform.get_current_value layer_time
      if pyRound ((fg_image.w : ℚ) * p.scale.1) = 0 ∨
          pyRound ((fg_image.h : ℚ) * p.scale.2) = 0 then
        (bg_image, s)
      else
        let fs := s.get_or_resize component layer_time fg_image p.scale
        let x := p.position.1 + (p.anchor_point.1 - (w : ℚ) / 2) * p.scale.1
        let y := p.position.2 + (p.anchor_point.2 - (h : ℚ) / 2) * p.scale.2
        (alphaComposite bg_image fs.1 (pyRound x, pyRound y) p.opacity
          component.blending_mode, fs.2)

/-- The loop body of `Composition.__call__`: fold `composite` over the
Components, threading the frame and the cache. -/
def Composition.compositeAll (s : Composition) (frame : Frame) (time : ℚ) :
    Frame × Composition :=
  s.layers.foldl (fun acc component => acc.2.composite acc.1 component time)
    (frame, s)

/-- `Composition.__call__`: on a cache hit return the stored buffer (touching
recency), else composite every Component onto a fresh transparent buffer of
shape `(size[1], size[0], 4)` and cache it. The `Optional` return annotation
is kept: both branches in fact return a buffer. -/
def Composition.call (s : Composition) (time : ℚ) :
    Option Frame × Composition :=
  let key := s.get_key time
  match s.cache.getTouch key with
  | some (v, cache2) => (some v, { s with cache := cache2 })
  | none =>
    let frame0 := zerosFrame s.size.2 s.size.1
    let fs := s.compositeAll frame0 time
    (some fs.1, { fs.2 with cache := fs.2.cache.insert key fs.1 })

/-- Rendering a Composition at each time of a list in order, keeping only the
final state (as an export loop does). -/
def Composition.renderAll (s : Composition) (ts : List ℚ) : Composition :=
  ts.foldl (fun acc t => (acc.call t).2) s

/-- A Composition satisfies the Layer protocol: rendering takes its own
current state, its duration and key derivation are its own. The cache state
threading across nested renders is not needed by the structural claims below. -/
def Composition.asLayer (c : Composition) : Layer :=
  ⟨fun t => (c.call t).1, c.duration, fun t => c.get_key t⟩

/-- `np.cumsum([a] + ds)` as `concatenate` uses it: inclusive prefix sums
starting at `a`. -/
def cumsum0 : ℚ → List ℚ → List ℚ
  | a, [] => [a]
  | a, d :: ds => a :: cumsum0 (a + d) ds

/-- `zunda.layer.composition.concatenate`: default the size to the first
child's (`IndexError` on an empty sequence), the duration to the sum, the
names to `scene_i` (asserting the length otherwise), then add each child as a
layer at its cumulative offset. -/
def concatenate (compositions : List Composition)
    (size : Option (ℕ × ℕ) := none) (duration : Option ℚ := none)
    (names : Option (List String) := none) : Except PyErr Composition := do
  let size ← match size, compositions with
    | some sz, _ => pure sz
    | none, c :: _ => pure c.size
    | none, [] => Except.error PyErr.indexError
  let duration := duration.getD (compositions.map Composition.duration).sum
  let names ← match names with
    | none => pure ((List.range compositions.length).map
        fun i => "scene_" ++ toString i)
    | some ns =>
      if ns.length = compositions.length then pure ns
      else Except.error PyErr.assertionError
  let main := Composition.init size duration
  let offsets := cumsum0 0 (compositions.map Composition.duration)
  (compositions.zip (names.zip offsets)).foldlM
    (fun main z => do
      let r ← main.add_layer z.1.asLayer (some z.2.1) none z.2.2
      pure r.2)
    main

@[simp]
theorem Composition.cacheUpdate_layers (s : Composition) (c : LRUCache) :
    ({ s with cache := c } : Composition).layers = s.layers := rfl

@[simp]
theorem Composition.cacheUpdate_size (s : Composition) (c : LRUCache) :
    ({ s with cache := c } : Composition).size = s.size := rfl

@[simp]
theorem Composition.cacheUpdate_duration (s : Composition) (c : LRUCache) :
    ({ s with cache := c } : Composition).duration = s.duration := rfl

@[simp]
theorem Composition.cacheUpdate_name_to_layer (s : Composition) (c : LRUCache) :
    ({ s with cache := c } : Composition).name_to_layer = s.name_to_layer := rfl

@[simp]
theorem Composition.cacheUpdate_cache (s : Composition) (c : LRUCache) :
    ({ s with cache := c } : Composition).cache = c := rfl

@[simp]
theorem Composition.cacheUpdate_get_key (s : Composition) (c : LRUCache) (t : ℚ) :
    ({ s with cache := c } : Composition).get_key t = s.get_key t := rfl

@[simp]
theorem Composition.cacheUpdate_cacheUpdate (s : Composition) (c c' : LRUCache) :
    ({ ({ s with cache := c } : Composition) with cache := c' } : Composition)
      = { s with cache := c' } := rfl

@[simp]
theorem Composition.cacheUpdate_self (s : Composition) :
    ({ s with cache := s.cache } : Composition) = s := rfl

theorem LRUCache.lookup_of_getTouch {c : LRUCache} {k : PyKey} {v : Frame}
    {c' : LRUCache} (h : c.getTouch k = some (v, c')) : c.lookup k = some v := by
  unfold LRUCache.getTouch at h
  unfold LRUCache.lookup
  cases hf : c.items.find? (fun e => decide (e.1 = k)) with
  | none => rw [hf] at h; exact absurd h (by simp)
  | some e => rw [hf] at h; simp only [Option.some.injEq, Prod.mk.injEq] at h
              simp [h.1]

theorem LRUCache.getTouch_lookup {c : LRUCache} {k : PyKey} {v : Frame}
    {c' : LRUCache} (h : c.getTouch k = some (v, c')) : c'.lookup k = some v := by
  unfold LRUCache.getTouch at h
  cases hf : c.items.find? (fun e => decide (e.1 = k)) with
  | none => rw [hf] at h; exact absurd h (by simp)
  | some e =>
    rw [hf] at h
    have hek : e.1 = k := by
      have := List.find?_some hf
      simpa using this
    simp only [Option.some.injEq, Prod.mk.injEq] at h
    obtain ⟨hv, hc⟩ := h
    subst hv
    rw [← hc]
    unfold LRUCache.lookup
    simp [List.find?_cons, hek]

theorem LRUCache.getTouch_maxsize {c : LRUCache} {k : PyKey} {v : Frame}
    {c' : LRUCache} (h : c.getTouch k = some (v, c')) : c'.maxsize = c.maxsize := by
  unfold LRUCache.getTouch at h
  cases hf : c.items.find? (fun e => decide (e.1 = k)) with
  | none => rw [hf] at h; exact absurd h (by simp)
  | some e => rw [hf] at h; simp only [Option.some.injEq, Prod.mk.injEq] at h
              rw [← h.2]

theorem LRUCache.lookup_insert (c : LRUCache) (k : PyKey) (v : Frame) :
    (c.insert k v).lookup k = some v := by
  unfold LRUCache.insert LRUCache.lookup
  split
  · simp [List.find?_cons]
  · split <;> simp [List.find?_cons]

theorem LRUCache.contains_of_lookup {c : LRUCache} {k : PyKey} {v : Frame}
    (h : c.lookup k = some v) : c.contains k = true := by
  unfold LRUCache.lookup at h
  unfold LRUCache.contains
  cases hf : c.items.find? (fun e => decide (e.1 = k)) with
  | none => rw [hf] at h; exact absurd h (by simp)
  | some e =>
    have hm := List.mem_of_find?_eq_some hf
    have hp := List.find?_some hf
    simp only [List.any_eq_true]
    exact ⟨e, hm, hp⟩

theorem LRUCache.getTouch_none_of_contains_false {c : LRUCache} {k : PyKey}
    (h : c.contains k = false) : c.getTouch k = none := by
  unfold LRUCache.contains at h
  unfold LRUCache.getTouch
  cases hf : c.items.find? (fun e => decide (e.1 = k)) with
  | none => rfl
  | some e =>
    have hm := List.mem_of_find?_eq_some hf
    have hp := List.find?_some hf
    rw [List.any_eq_false] at h
    exact absurd hp (by simpa using h e hm)

theorem perm_cons_eraseP_of_find {α : Type} {p : α → Bool} :
    ∀ {l : List α} {e : α}, l.find? p = some e → l.Perm (e :: l.eraseP p) := by
  intro l
  induction l with
  | nil => intro e h; exact absurd h (by simp)
  | cons x xs ih =>
    intro e h
    by_cases hp : p x
    · rw [List.find?_cons_of_pos _ hp] at h
      cases h
      rw [List.eraseP_cons_of_pos hp]
    · rw [List.find?_cons_of_neg _ hp] at h
      rw [List.eraseP_cons_of_neg hp]
      exact ((ih h).cons x).trans (List.Perm.swap e x _)

theorem LRUCache.perm_of_getTouch {c : LRUCache} {k : PyKey} {v : Frame}
    {c' : LRUCache} (h : c.getTouch k = some (v, c')) :
    c'.items.Perm c.items := by
  unfold LRUCache.getTouch at h
  cases hf : c.items.find? (fun e => decide (e.1 = k)) with
  | none => rw [hf] at h; exact absurd h (by simp)
  | some e =>
    rw [hf] at h
    simp only [Option.some.injEq, Prod.mk.injEq] at h
    rw [← h.2]
    exact (perm_cons_eraseP_of_find hf).symm


theorem Composition.get_or_resize_state (s : Composition) (component : Component)
    (layer_time : ℚ) (image : Frame) (scale : ℚ × ℚ) :
    ∃ c2, (s.get_or_resize component layer_time image scale).2
      = { s with cache := c2 } := by
  unfold Composition.get_or_resize
  simp only [pyScaleEqOne, Bool.false_eq_true, if_false]
  cases hg : s.cache.getTouch (layerKey component.name
      (component.get_key layer_time) scale) with
  | none => exact ⟨_, rfl⟩
  | some vc => exact ⟨vc.2, rfl⟩

theorem LRUCache.lookup_of_getTouch_none {c : LRUCache} {k : PyKey}
    (h : c.getTouch k = none) : c.lookup k = none := by
  unfold LRUCache.getTouch at h
  unfold LRUCache.lookup
  cases hf : c.items.find? (fun e => decide (e.1 = k)) with
  | none => simp [hf]
  | some e => rw [hf] at h; exact absurd h (by simp)

theorem Composition.composite_state (s : Composition) (bg : Frame)
    (component : Component) (time : ℚ) :
    ∃ c2, (s.composite bg component time).2 = { s with cache := c2 } := by
  simp only [Composition.composite]
  split
  · exact ⟨s.cache, rfl⟩
  · split
    · exact ⟨s.cache, rfl⟩
    · split
      · exact ⟨s.cache, rfl⟩
      · exact s.get_or_resize_state component _ _ _

theorem Composition.compositeAll_foldl_state (time : ℚ) :
    ∀ (L : List Component) (f : Frame) (s : Composition),
      ∃ c2, (L.foldl (fun acc component => acc.2.composite acc.1 component time)
        (f, s)).2 = { s with cache := c2 } := by
  intro L
  induction L with
  | nil => intro f s; exact ⟨s.cache, rfl⟩
  | cons c L ih =>
    intro f s
    rw [List.foldl_cons]
    obtain ⟨d, hd⟩ := s.composite_state f c time
    obtain ⟨c2, h2⟩ := ih (s.composite f c time).1 (s.composite f c time).2
    refine ⟨c2, ?_⟩
    rw [show ((s.composite f c time).1, (s.composite f c time).2)
        = s.composite f c time from rfl] at h2
    rw [h2, hd]

theorem Composition.compositeAll_state (s : Composition) (f : Frame) (time : ℚ) :
    ∃ c2, (s.compositeAll f time).2 = { s with cache := c2 } :=
  Composition.compositeAll_foldl_state time s.layers f s

theorem Composition.call_state (s : Composition) (time : ℚ) :
    ∃ c2, (s.call time).2 = { s with cache := c2 } := by
  cases hg : s.cache.getTouch (s.get_key time) with
  | none =>
    obtain ⟨c2, h2⟩ := s.compositeAll_state (zerosFrame s.size.2 s.size.1) time
    refine ⟨c2.insert (s.get_key time)
      (s.compositeAll (zerosFrame s.size.2 s.size.1) time).1, ?_⟩
    simp only [Composition.call, hg]
    rw [h2]
  | some vc =>
    obtain ⟨v, c2⟩ := vc
    exact ⟨c2, by simp [Composition.call, hg]⟩

theorem Composition.call_lookup (s : Composition) (time : ℚ) :
    ∃ f, (s.call time).1 = some f ∧
      ((s.call time).2).cache.lookup (s.get_key time) = some f := by
  cases hg : s.cache.getTouch (s.get_key time) with
  | none =>
    refine ⟨(s.compositeAll (zerosFrame s.size.2 s.size.1) time).1, ?_, ?_⟩ <;>
      simp [Composition.call, hg, LRUCache.lookup_insert]
  | some vc =>
    obtain ⟨v, c2⟩ := vc
    refine ⟨v, by simp [Composition.call, hg], ?_⟩
    simp only [Composition.call, hg]
    simpa using LRUCache.getTouch_lookup hg

theorem Composition.call_of_lookup {s : Composition} {time : ℚ} {f : Frame}
    (h : s.cache.lookup (s.get_key time) = some f) :
    (s.call time).1 = some f := by
  cases hg : s.cache.getTouch (s.get_key time) with
  | none => simp [LRUCache.lookup_of_getTouch_none hg] at h
  | some vc =>
    obtain ⟨v, c2⟩ := vc
    have hl := LRUCache.lookup_of_getTouch hg
    rw [h] at hl
    simp only [Option.some.injEq] at hl
    simp [Composition.call, hg, hl]

theorem LRUCache.getTouch_of_lookup {c : LRUCache} {k : PyKey} {f : Frame}
    (h : c.lookup k = some f) : ∃ c', c.getTouch k = some (f, c') := by
  unfold LRUCache.lookup at h
  unfold LRUCache.getTouch
  cases hf : c.items.find? (fun e => decide (e.1 = k)) with
  | none => rw [hf] at h; exact absurd h (by simp)
  | some e =>
    rw [hf] at h
    simp only [Option.map_some', Option.some.injEq] at h
    exact ⟨⟨c.maxsize, e :: c.items.eraseP fun e' => decide (e'.1 = k)⟩, by rw [← h]⟩

/-- A Composition after one `add_layer` call, keeping the old state when the
call reports an error. -/
def addLayerState (s : Composition) (layer : Layer) (name : String) : Composition :=
  match s.add_layer layer (some name) with
  | .ok r => r.2
  | .error _ => s

/-- A Layer that renders nothing at every time (protocol defaults otherwise). -/
def noneLayer : Layer := { render := fun _ => none }

def c1_s1 : Composition := addLayerState (Composition.init (10, 10) 1) noneLayer "a"

def c1_s2 : Composition := addLayerState c1_s1 noneLayer "a"

/-- C1: the claim fails on the code. `add_layer`'s guard `if name in
self.layers:` compares the string against Component objects, which is always
`False` in Python, so a second `add_layer` with the same explicit name "a"
does not raise `KeyError`: it succeeds and appends a second Component named
"a" to the list. -/
theorem c1_duplicate_name_is_appended :
    (∃ r, c1_s1.add_layer noneLayer (some "a") = Except.ok r) ∧
    c1_s1.layers.map Component.name = ["a"] ∧
    c1_s2.layers.map Component.name = ["a", "a"] :=
  ⟨⟨_, rfl⟩, rfl, rfl⟩

def c2_img : Frame := zerosFrame 2 2

def c2_component : Component :=
  ⟨"img", noneLayer, Transform.ofPosition (1, 1), 0, 0, 1, true, .normal⟩

def c2_state : Composition := Composition.init (4, 4) 1

/-- C2: the claim fails on the code. `_get_or_resize`'s shortcut
`if scale == 1.0:` compares the tuple `scale` with the float `1.0`, which is
always `False` in Python, so at scale `(1, 1)` the function does not return
the input buffer untouched: it runs the resize path and inserts a
`(LAYER, name, state, scale)` entry into the cache. -/
theorem c2_scale_one_still_resizes :
    (c2_state.get_or_resize c2_component 0 c2_img (1, 1)).2.cache.items.map Prod.fst
        = [layerKey "img" (PyKey.rat 0) (1, 1)] ∧
    c2_state.cache.items = [] ∧
    (c2_state.get_or_resize c2_component 0 c2_img (1, 1)).1
        = resizeImage c2_img (1, 1) :=
  ⟨rfl, rfl, rfl⟩

/-- C3: two times whose composition keys agree render byte-identical frames:
the first render leaves the frame stored under that key, and the second
render returns exactly the stored buffer. The per-layer cache-key contract is
the claim's premise; the code guarantees the property through its cache even
without it. -/
theorem c3_same_key_same_frame (s : Composition) (t1 t2 : ℚ)
    (hcontract : ∀ c ∈ s.layers, ∀ u v : ℚ,
      c.layer.get_key u = c.layer.get_key v → c.layer.render u = c.layer.render v)
    (hk : s.get_key t1 = s.get_key t2) :
    ((s.call t1).2.call t2).1 = (s.call t1).1 := by
  obtain ⟨f, h1, h2⟩ := s.call_lookup t1
  obtain ⟨c2, hs⟩ := s.call_state t1
  have hk2 : ((s.call t1).2).get_key t2 = s.get_key t1 := by
    rw [hs]
    simp [← hk]
  have hl : ((s.call t1).2).cache.lookup (((s.call t1).2).get_key t2) = some f := by
    rw [hk2]
    exact h2
  rw [Composition.call_of_lookup hl, h1]

/-- A Layer rendering a constant frame under a constant cache key. -/
def constLayer : Layer :=
  { render := fun _ => some (zerosFrame 1 1), get_key := fun _ => PyKey.rat 0 }

def c3_component : Component :=
  ⟨"bg", constLayer, Transform.ofPosition (1, 1), 0, 0, 10, true, .normal⟩

def c3_state : Composition :=
  ⟨[c3_component], [("bg", c3_component)], (2, 2), 10, ⟨128, []⟩⟩

theorem c3_same_key_same_frame_witness :
    ((c3_state.call 0).2.call 1).1 = (c3_state.call 0).1 :=
  c3_same_key_same_frame c3_state 0 1
    (by
      intro c hc u v _
      simp only [c3_state, List.mem_singleton] at hc
      subst hc
      rfl)
    (by norm_num [c3_state, Composition.get_key, c3_component,
      Component.get_key, constLayer])

/-- C4: rendering twice at one time with no mutation in between returns the
same buffer, the key is in the cache after the first render, and the second
render only reorders the cache entries (a hit: no new insertion, no
recomputation). -/
theorem c4_render_idempotent (s : Composition) (t : ℚ) :
    ((s.call t).2.call t).1 = (s.call t).1 ∧
    ((s.call t).2).cache.contains (s.get_key t) = true ∧
    (((s.call t).2.call t).2).cache.items.Perm ((s.call t).2).cache.items := by
  obtain ⟨f, h1, h2⟩ := s.call_lookup t
  obtain ⟨c2, hs⟩ := s.call_state t
  have hk : ((s.call t).2).get_key t = s.get_key t := by rw [hs]; simp
  have hl : ((s.call t).2).cache.lookup (((s.call t).2).get_key t) = some f := by
    rw [hk]
    exact h2
  refine ⟨by rw [Composition.call_of_lookup hl, h1], LRUCache.contains_of_lookup h2, ?_⟩
  obtain ⟨c', hgt⟩ := LRUCache.getTouch_of_lookup hl
  set s1 := (s.call t).2 with hs1
  have hc : (s1.call t).2.cache = c' := by
    simp [Composition.call, hgt]
  rw [hc]
  exact LRUCache.perm_of_getTouch hgt

/-- C5: a Component whose local time falls outside its active window leaves
the background and the cache state untouched, whatever its Layer, Transform
or visibility. -/
theorem c5_outside_window_identity (s : Composition) (bg : Frame)
    (component : Component) (time : ℚ)
    (h : time - component.offset < component.start_time ∨
      component.end_time ≤ time - component.offset) :
    s.composite bg component time = (bg, s) := by
  simp only [Composition.composite]
  rw [if_pos h]

def c5_component : Component :=
  ⟨"red", constLayer, Transform.ofPosition (2, 2), 0, 0, 3, true, .normal⟩

def c5_state : Composition := Composition.init (4, 4) 1

theorem c5_outside_window_identity_witness :
    c5_state.composite (zerosFrame 4 4) c5_component 5 = (zerosFrame 4 4, c5_state) :=
  c5_outside_window_identity c5_state (zerosFrame 4 4) c5_component 5
    (by norm_num [c5_component])

/-- C9: a Component inside its active window whose Layer renders `None`
leaves the background and the cache state untouched: the absent frame is
transparent, not an error. -/
theorem c9_none_frame_identity (s : Composition) (bg : Frame)
    (component : Component) (time : ℚ)
    (hwin : component.start_time ≤ time - component.offset ∧
      time - component.offset < component.end_time)
    (hnone : component.call (time - component.offset) = none) :
    s.composite bg component time = (bg, s) := by
  have h : ¬(time - component.offset < component.start_time ∨
      component.end_time ≤ time - component.offset) := by
    push_neg
    exact ⟨hwin.1, hwin.2⟩
  simp only [Composition.composite]
  rw [if_neg h, hnone]

def c9_component : Component :=
  ⟨"gap", noneLayer, Transform.ofPosition (2, 2), 0, 0, 3, true, .normal⟩

def c9_state : Composition := Composition.init (4, 4) 1

theorem c9_none_frame_identity_witness :
    c9_state.composite (zerosFrame 4 4) c9_component 1 = (zerosFrame 4 4, c9_state) :=
  c9_none_frame_identity c9_state (zerosFrame 4 4) c9_component 1
    (by norm_num [c9_component]) rfl

theorem eraseIdx_of_findIdx {α : Type} {p : α → Bool} :
    ∀ {l : List α} {i : ℕ}, l.findIdx? p = some i → l.eraseIdx i = l.eraseP p := by
  intro l
  induction l with
  | nil => intro i h; exact absurd h (by simp)
  | cons x xs ih =>
    intro i h
    rw [List.findIdx?_cons] at h
    by_cases hp : p x
    · rw [if_pos hp] at h
      cases h
      rw [List.eraseP_cons_of_pos hp]
      rfl
    · rw [if_neg hp, List.findIdx?_succ] at h
      cases hj : xs.findIdx? p with
      | none => rw [hj] at h; exact absurd h (by simp)
      | some j =>
        rw [hj] at h
        simp only [Option.map_some', Option.some.injEq] at h
        subst h
        rw [List.eraseP_cons_of_neg hp]
        show x :: xs.eraseIdx j = x :: xs.eraseP p
        rw [ih hj]

/-- C8: `pop_layer` with an absent name fails with the `KeyError` (the
functional port returns no new state, so the Composition is untouched); with
a present name it returns the indexed Component and the state with the first
Component of that name dropped from the ordered list and the entry dropped
from the name dict. -/
theorem c8_pop_layer_removes_or_fails (s : Composition) (name : String) :
    (dictContains s.name_to_layer name = false →
      s.pop_layer name =
        Except.error (PyErr.keyError ("Layer with name " ++ name ++ " does not exist"))) ∧
    (∀ component, dictLookup s.name_to_layer name = some component →
      name ∈ s.layers.map Component.name →
      s.pop_layer name = Except.ok (component,
        { s with
          layers := s.layers.eraseP (fun c => c.name = name)
          name_to_layer := dictErase s.name_to_layer name })) := by
  constructor
  · intro h
    simp [Composition.pop_layer, h]
  · intro component hlook hmem
    have hcont : dictContains s.name_to_layer name = true := by
      unfold dictLookup at hlook
      unfold dictContains
      cases hf : s.name_to_layer.find? (fun e => decide (e.1 = name)) with
      | none => rw [hf] at hlook; exact absurd hlook (by simp)
      | some e =>
        have hm := List.mem_of_find?_eq_some hf
        have hp := List.find?_some hf
        simp only [List.any_eq_true]
        exact ⟨e, hm, hp⟩
    obtain ⟨i, hi⟩ : ∃ i, s.layers.findIdx? (fun c => decide (c.name = name)) = some i := by
      cases hj : s.layers.findIdx? (fun c => decide (c.name = name)) with
      | some j => exact ⟨j, rfl⟩
      | none =>
        rw [List.findIdx?_eq_none_iff] at hj
        rw [List.mem_map] at hmem
        obtain ⟨c, hc, hcn⟩ := hmem
        exact absurd (hj c hc) (by simp [hcn])
    simp only [Composition.pop_layer, hcont, hi, hlook]
    rw [eraseIdx_of_findIdx hi]
    simp

/-- A value is an RGBA buffer of shape `(h, w, 4)`: the recorded height and
width match and every row of the data grid has the recorded width. -/
def FrameWF (f : Frame) (h w : ℕ) : Prop :=
  f.h = h ∧ f.w = w ∧ f.data.length = h ∧ ∀ row ∈ f.data, row.length = w

theorem zerosFrame_wf (h w : ℕ) : FrameWF (zerosFrame h w) h w := by
  refine ⟨rfl, rfl, by simp [zerosFrame], ?_⟩
  intro row hr
  rw [List.eq_of_mem_replicate (show row ∈ _ from hr)]
  simp

theorem alphaComposite_wf (bg fg : Frame) (pos : ℤ × ℤ) (op : ℚ)
    (m : BlendingMode) : FrameWF (alphaComposite bg fg pos op m) bg.h bg.w := by
  refine ⟨rfl, rfl, by simp [alphaComposite], ?_⟩
  intro row hr
  simp only [alphaComposite, List.mem_map] at hr
  obtain ⟨i, _, hrow⟩ := hr
  rw [← hrow]
  simp

theorem alphaComposite_wf_of {bg : Frame} {h w : ℕ} (hbg : FrameWF bg h w)
    (fg : Frame) (pos : ℤ × ℤ) (op : ℚ) (m : BlendingMode) :
    FrameWF (alphaComposite bg fg pos op m) h w := by
  have hwf := alphaComposite_wf bg fg pos op m
  rw [hbg.1, hbg.2.1] at hwf
  exact hwf

theorem composite_wf {s : Composition} {bg : Frame} {component : Component}
    {time : ℚ} {h w : ℕ} (hbg : FrameWF bg h w) :
    FrameWF ((s.composite bg component time).1) h w := by
  simp only [Composition.composite]
  split
  · exact hbg
  · split
    · exact hbg
    · split
      · exact hbg
      · exact alphaComposite_wf_of hbg _ _ _ _

theorem compositeAll_foldl_wf (time : ℚ) :
    ∀ (L : List Component) (f : Frame) (s : Composition) {h w : ℕ},
      FrameWF f h w →
      FrameWF ((L.foldl (fun acc component => acc.2.composite acc.1 component time)
        (f, s)).1) h w := by
  intro L
  induction L with
  | nil => intro f s h w hf; exact hf
  | cons c L ih =>
    intro f s h w hf
    rw [List.foldl_cons]
    have step := @composite_wf s f c time h w hf
    have := ih (s.composite f c time).1 (s.composite f c time).2 step
    rw [show ((s.composite f c time).1, (s.composite f c time).2)
        = s.composite f c time from rfl] at this
    exact this

theorem compositeAll_wf {s : Composition} {f : Frame} {time : ℚ} {h w : ℕ}
    (hf : FrameWF f h w) : FrameWF ((s.compositeAll f time).1) h w :=
  compositeAll_foldl_wf time s.layers f s hf

/-- C10: `__call__` never returns `None` despite its `Optional` annotation:
a cache hit returns the stored buffer, and a cache miss returns the frame
composited over a fresh fully transparent `np.zeros((size[1], size[0], 4),
dtype=np.uint8)` buffer, which keeps that shape. -/
theorem c10_call_never_none (s : Composition) (t : ℚ) :
    (s.call t).1 ≠ none ∧
    (∀ f cache2, s.cache.getTouch (s.get_key t) = some (f, cache2) →
      (s.call t).1 = some f) ∧
    (s.cache.getTouch (s.get_key t) = none →
      (s.call t).1 = some ((s.compositeAll (zerosFrame s.size.2 s.size.1) t).1) ∧
      FrameWF ((s.compositeAll (zerosFrame s.size.2 s.size.1) t).1)
        s.size.2 s.size.1) := by
  refine ⟨?_, ?_, ?_⟩
  · obtain ⟨f, h1, _⟩ := s.call_lookup t
    rw [h1]
    simp
  · intro f cache2 hg
    simp [Composition.call, hg]
  · intro hg
    exact ⟨by simp [Composition.call, hg], compositeAll_wf (zerosFrame_wf _ _)⟩

theorem any_pyStrEqComponent (L : List Component) (name : String) :
    L.any (pyStrEqComponent name) = false := by
  induction L with
  | nil => rfl
  | cons c L ih => simp [pyStrEqComponent, ih]

@[simp]
theorem except_bind_ok {ε α β : Type} (x : α) (f : α → Except ε β) :
    (Except.ok x >>= f) = f x := rfl

@[simp]
theorem except_pure_ok {ε α : Type} (x : α) :
    (pure x : Except ε α) = Except.ok x := rfl

theorem except_step {ε α β γ : Type} {e : Except ε (α × β)} {c : α} {s2 : β}
    (h : e = Except.ok (c, s2)) (k : β → Except ε γ) :
    ((e >>= fun r => pure r.2) >>= k) = k s2 := by
  subst h
  rfl

/-- The Component `concatenate` adds for one child: the given scene name, the
child as a Layer, the default centered Transform, the cumulative offset, the
default window `[0, child.duration)`. -/
def sceneComponent (size : ℕ × ℕ) (z : Composition × String × ℚ) : Component :=
  ⟨z.2.1, z.1.asLayer,
    Transform.ofPosition ((size.1 : ℚ) / 2, (size.2 : ℚ) / 2),
    z.2.2, 0, z.1.duration, true, .normal⟩

theorem add_layer_eq (s : Composition) (layer : Layer) (name : String)
    (offset : ℚ) :
    s.add_layer layer (some name) none offset
      = Except.ok
        (⟨name, layer, Transform.ofPosition ((s.size.1 : ℚ) / 2, (s.size.2 : ℚ) / 2),
          offset, 0, layer.duration, true, .normal⟩,
         { s with
           layers := s.layers ++ [⟨name, layer,
             Transform.ofPosition ((s.size.1 : ℚ) / 2, (s.size.2 : ℚ) / 2),
             offset, 0, layer.duration, true, .normal⟩]
           name_to_layer := dictInsert s.name_to_layer name ⟨name, layer,
             Transform.ofPosition ((s.size.1 : ℚ) / 2, (s.size.2 : ℚ) / 2),
             offset, 0, layer.duration, true, .normal⟩ }) := by
  simp [Composition.add_layer, any_pyStrEqComponent]

theorem concat_loop (size : ℕ × ℕ) :
    ∀ (zs : List (Composition × String × ℚ)) (main : Composition),
      main.size = size →
      ∃ d, (zs.foldlM (fun main z => do
          let r ← main.add_layer z.1.asLayer (some z.2.1) none z.2.2
          pure r.2) main : Except PyErr Composition)
        = Except.ok { main with
            layers := main.layers ++ zs.map (sceneComponent size)
            name_to_layer := d } := by
  intro zs
  induction zs with
  | nil =>
    intro main _
    exact ⟨main.name_to_layer, by simp⟩
  | cons z zs ih =>
    intro main hsz
    rw [List.foldlM_cons,
      except_step (add_layer_eq main z.1.asLayer z.2.1 z.2.2) _]
    obtain ⟨d, hd⟩ := ih
      { main with
        layers := main.layers ++ [⟨z.2.1, z.1.asLayer,
          Transform.ofPosition ((main.size.1 : ℚ) / 2, (main.size.2 : ℚ) / 2),
          z.2.2, 0, z.1.asLayer.duration, true, .normal⟩]
        name_to_layer := dictInsert main.name_to_layer z.2.1 ⟨z.2.1, z.1.asLayer,
          Transform.ofPosition ((main.size.1 : ℚ) / 2, (main.size.2 : ℚ) / 2),
          z.2.2, 0, z.1.asLayer.duration, true, .normal⟩ }
      (by simpa using hsz)
    refine ⟨d, ?_⟩
    rw [hd]
    subst hsz
    simp [sceneComponent, Composition.asLayer]

theorem cumsum0_take (ds : List ℚ) :
    ∀ a : ℚ, (cumsum0 a ds).take ds.length
      = (List.range ds.length).map (fun i => a + (ds.take i).sum) := by
  induction ds with
  | nil => intro a; simp
  | cons d ds ih =>
    intro a
    show (a :: cumsum0 (a + d) ds).take (ds.length + 1) = _
    rw [List.take_succ_cons, ih (a + d)]
    simp only [List.length_cons, List.range_succ_eq_map, List.map_cons, List.map_map]
    congr 1
    · simp
    · apply List.map_congr_left
      intro i _
      simp [Function.comp, Nat.succ_eq_add_one, List.take_succ_cons, add_assoc]

theorem zip_proj_maps {α β γ : Type} :
    ∀ (xs : List α) (ys : List β) (zs : List γ),
      ys.length = xs.length → xs.length ≤ zs.length →
      ((xs.zip (ys.zip zs)).map (fun z => z.1) = xs ∧
       (xs.zip (ys.zip zs)).map (fun z => z.2.1) = ys ∧
       (xs.zip (ys.zip zs)).map (fun z => z.2.2) = zs.take xs.length) := by
  intro xs
  induction xs with
  | nil =>
    intro ys zs hy _
    have hys : ys = [] := List.eq_nil_of_length_eq_zero (by simpa using hy)
    subst hys
    simp
  | cons x xs ih =>
    intro ys zs hy hz
    cases ys with
    | nil => simp at hy
    | cons y ys =>
      cases zs with
      | nil => simp at hz
      | cons z zs =>
        obtain ⟨h1, h2, h3⟩ := ih ys zs (by simpa using hy) (by simpa using hz)
        refine ⟨?_, ?_, ?_⟩ <;> simp [h1, h2, h3, List.take_succ_cons]

theorem cumsum0_length (a : ℚ) (ds : List ℚ) :
    (cumsum0 a ds).length = ds.length + 1 := by
  induction ds generalizing a with
  | nil => rfl
  | cons d ds ih => simp [cumsum0, ih]

/-- C7: `concatenate` on a non-empty list, with size, duration and names left
unspecified, succeeds and returns a Composition whose size is the first
child's, whose duration is the sum of the children's durations, and whose
Components are exactly the children as Layers, each offset by the cumulative
duration of the preceding children (the first at offset 0). -/
theorem c7_concatenate_structure (c0 : Composition) (rest : List Composition) :
    ∃ m, concatenate (c0 :: rest) = Except.ok m ∧
      m.size = c0.size ∧
      m.duration = ((c0 :: rest).map Composition.duration).sum ∧
      m.layers.length = (c0 :: rest).length ∧
      m.layers.map Component.layer = (c0 :: rest).map Composition.asLayer ∧
      m.layers.map Component.offset
        = (List.range (c0 :: rest).length).map
            (fun i => (((c0 :: rest).take i).map Composition.duration).sum) := by
  have hnames : (((List.range (c0 :: rest).length).map
      (fun i => "scene_" ++ toString i)) : List String).length
      = (c0 :: rest).length := by simp
  have hoffs : (c0 :: rest).length
      ≤ (cumsum0 0 ((c0 :: rest).map Composition.duration)).length := by
    rw [cumsum0_length]
    simp only [List.length_map]
    exact Nat.le_succ _
  obtain ⟨p1, p2, p3⟩ := zip_proj_maps (c0 :: rest)
    ((List.range (c0 :: rest).length).map (fun i => "scene_" ++ toString i))
    (cumsum0 0 ((c0 :: rest).map Composition.duration)) hnames hoffs
  obtain ⟨d, hd⟩ := concat_loop c0.size
    ((c0 :: rest).zip ((((List.range (c0 :: rest).length).map
        (fun i => "scene_" ++ toString i))).zip
      (cumsum0 0 ((c0 :: rest).map Composition.duration))))
    (Composition.init c0.size (((c0 :: rest).map Composition.duration).sum))
    rfl
  have hlen : ((c0 :: rest).zip ((((List.range (c0 :: rest).length).map
      (fun i => "scene_" ++ toString i))).zip
      (cumsum0 0 ((c0 :: rest).map Composition.duration)))).length
      = (c0 :: rest).length := by
    conv_rhs => rw [← p1]
    simp
  simp only [concatenate, pure_bind, Option.getD_none]
  rw [hd]
  refine ⟨_, rfl, rfl, rfl, ?_, ?_, ?_⟩
  · simp only [Composition.init, List.nil_append, List.length_map]
    exact hlen
  · simp only [Composition.init, List.nil_append, List.map_map]
    rw [show (Component.layer ∘ sceneComponent c0.size)
        = (Composition.asLayer ∘ fun z : Composition × String × ℚ => z.1) from rfl]
    rw [← List.map_map, p1]
  · simp only [Composition.init, List.nil_append, List.map_map]
    rw [show (Component.offset ∘ sceneComponent c0.size)
        = (fun z : Composition × String × ℚ => z.2.2) from rfl]
    rw [p3]
    rw [show (c0 :: rest).length = ((c0 :: rest).map Composition.duration).length
        from (List.length_map _ _).symm]
    rw [cumsum0_take]
    rw [List.length_map]
    apply List.map_congr_left
    intro i _
    rw [← List.map_take]
    simp

theorem composite_of_render_none {s : Composition} {bg : Frame} {c : Component}
    {time : ℚ} (h : c.layer.render (time - c.offset) = none) :
    s.composite bg c time = (bg, s) := by
  simp only [Composition.composite]
  split
  · rfl
  · rw [show c.call (time - c.offset) = none from h]

theorem compositeAll_of_render_none {s : Composition} {f : Frame} {time : ℚ}
    (h : ∀ c ∈ s.layers, ∀ u : ℚ, c.layer.render u = none) :
    s.compositeAll f time = (f, s) := by
  unfold Composition.compositeAll
  have key : ∀ (L : List Component),
      (∀ c ∈ L, ∀ u : ℚ, c.layer.render u = none) →
      ∀ (g : Frame), L.foldl
        (fun acc component => acc.2.composite acc.1 component time) (g, s) = (g, s) := by
    intro L
    induction L with
    | nil => intro _ g; rfl
    | cons c L ih =>
      intro hL g
      rw [List.foldl_cons]
      have hstep : s.composite g c time = (g, s) :=
        composite_of_render_none (hL c (by simp) (time - c.offset))
      rw [show ((g, s) : Frame × Composition).2.composite (g, s).1 c time
          = s.composite g c time from rfl, hstep]
      exact ih (fun c' hc' => hL c' (by simp [hc'])) g
  exact key s.layers h f

theorem call_of_render_none {s : Composition} {time : ℚ}
    (hnone : ∀ c ∈ s.layers, ∀ u : ℚ, c.layer.render u = none)
    (hmiss : s.cache.getTouch (s.get_key time) = none) :
    s.call time = (some (zerosFrame s.size.2 s.size.1),
      { s with cache := s.cache.insert (s.get_key time) (zerosFrame s.size.2 s.size.1) }) := by
  simp only [Composition.call, hmiss]
  rw [compositeAll_of_render_none hnone]

theorem call_miss (s : Composition) (t : ℚ)
    (h : s.cache.getTouch (s.get_key t) = none) :
    (s.call t).1 = some ((s.compositeAll (zerosFrame s.size.2 s.size.1) t).1) := by
  simp [Composition.call, h]

theorem LRUCache.contains_insert_of {c : LRUCache} {k k' : PyKey} {v : Frame}
    (h : (c.insert k' v).contains k = true) : k = k' ∨ c.contains k = true := by
  unfold LRUCache.insert at h
  unfold LRUCache.contains at h ⊢
  split at h
  · simp only [List.any_cons, Bool.or_eq_true] at h
    rcases h with h1 | h2
    · left; exact (by simpa using h1 : k' = k).symm
    · right
      rw [List.any_eq_true] at h2 ⊢
      obtain ⟨e, he, hp⟩ := h2
      exact ⟨e, List.mem_of_mem_eraseP he, hp⟩
  · split at h
    · simp only [List.any_cons, Bool.or_eq_true] at h
      rcases h with h1 | h2
      · left; exact (by simpa using h1 : k' = k).symm
      · right; exact h2
    · simp only [List.any_cons, Bool.or_eq_true] at h
      rcases h with h1 | h2
      · left; exact (by simpa using h1 : k' = k).symm
      · right
        rw [List.any_eq_true] at h2 ⊢
        obtain ⟨e, he, hp⟩ := h2
        exact ⟨e, List.Sublist.mem he (List.dropLast_sublist _), hp⟩

theorem LRUCache.contains_iff_mem {c : LRUCache} {k : PyKey} :
    c.contains k = true ↔ k ∈ c.items.map Prod.fst := by
  unfold LRUCache.contains
  rw [List.any_eq_true]
  constructor
  · rintro ⟨e, he, hp⟩
    have hek : e.1 = k := by simpa using hp
    rw [← hek]
    exact List.mem_map_of_mem _ he
  · intro hm
    rw [List.mem_map] at hm
    obtain ⟨e, he, hek⟩ := hm
    exact ⟨e, he, by simp [hek]⟩

theorem foldl_insert_fresh (n : ℕ) (hn : 0 < n) (zf : Frame) :
    ∀ ks : List PyKey, ks.Nodup →
      ((ks.foldl (fun c k => c.insert k zf) ⟨n, []⟩ : LRUCache)).maxsize = n ∧
      ((ks.foldl (fun c k => c.insert k zf) ⟨n, []⟩ : LRUCache)).items.map Prod.fst
        = ks.reverse.take n := by
  intro ks
  induction ks using List.reverseRecOn with
  | nil => intro _; exact ⟨rfl, by simp⟩
  | append_singleton ks k ih =>
    intro hnd
    obtain ⟨hnd', _, hdisj⟩ := List.nodup_append.mp hnd
    have hk : k ∉ ks := fun hmem => hdisj hmem (by simp)
    obtain ⟨hm, hitems⟩ := ih hnd'
    rw [List.foldl_append]
    simp only [List.foldl_cons, List.foldl_nil]
    set C : LRUCache := ks.foldl (fun c k => c.insert k zf) ⟨n, []⟩ with hC
    have hanyk : C.items.any (fun e => decide (e.1 = k)) = false := by
      rw [List.any_eq_false]
      intro e he
      simp only [decide_eq_true_eq]
      intro hek
      apply hk
      have h1 : e.1 ∈ C.items.map Prod.fst := List.mem_map_of_mem _ he
      rw [hitems] at h1
      have h2 : e.1 ∈ ks.reverse := List.take_subset _ _ h1
      rw [List.mem_reverse] at h2
      rw [← hek]
      exact h2
    have hlenC : C.items.length = min n ks.length := by
      have : C.items.length = (C.items.map Prod.fst).length :=
        (List.length_map _ _).symm
      rw [this, hitems, List.length_take, List.length_reverse]
    obtain ⟨m, rfl⟩ : ∃ m, n = m + 1 := ⟨n - 1, (Nat.succ_pred_eq_of_pos hn).symm⟩
    unfold LRUCache.insert
    rw [hanyk]
    simp only [Bool.false_eq_true, if_false]
    rw [hm]
    by_cases hfull : C.items.length < m + 1
    · rw [if_pos hfull]
      have hks : ks.length ≤ m := by
        rw [hlenC] at hfull
        rcases Nat.lt_or_ge ks.length (m + 1) with h | h
        · exact Nat.lt_succ_iff.mp h
        · rw [Nat.min_eq_left h] at hfull
          exact absurd hfull (Nat.lt_irrefl _)
      refine ⟨rfl, ?_⟩
      simp only [List.map_cons, hitems, List.reverse_append, List.reverse_singleton,
        List.singleton_append, List.take_succ_cons]
      rw [List.take_of_length_le (by simpa using Nat.le_succ_of_le hks),
        List.take_of_length_le (by simpa using hks)]
    · rw [if_neg hfull]
      have hlen : C.items.length = m + 1 := by
        rw [hlenC]
        rw [hlenC] at hfull
        rcases Nat.lt_or_ge ks.length (m + 1) with h | h
        · exact absurd (by rw [Nat.min_eq_right (Nat.le_of_lt h)]; exact h) hfull
        · exact Nat.min_eq_left h
      refine ⟨rfl, ?_⟩
      simp only [List.map_cons, List.map_dropLast, hitems, List.reverse_append,
        List.reverse_singleton, List.singleton_append, List.take_succ_cons]
      rw [List.dropLast_eq_take, List.length_take, List.length_reverse]
      rw [List.take_take]
      congr 1
      have hge : m + 1 ≤ ks.length := by
        rw [hlenC] at hlen
        rcases Nat.lt_or_ge ks.length (m + 1) with h | h
        · rw [Nat.min_eq_right (Nat.le_of_lt h)] at hlen
          rw [hlen] at h
          exact absurd h (Nat.lt_irrefl _)
        · exact h
      rw [Nat.min_eq_left hge]
      exact (Nat.min_eq_left (Nat.le_succ m)).symm ▸ rfl

theorem renderAll_of_render_none (s0 : Composition)
    (hnone : ∀ c ∈ s0.layers, ∀ u : ℚ, c.layer.render u = none) :
    ∀ (ts : List ℚ) (cache : LRUCache),
      (∀ t ∈ ts, cache.contains (s0.get_key t) = false) →
      (ts.map s0.get_key).Nodup →
      Composition.renderAll { s0 with cache := cache } ts
        = { s0 with cache := ts.foldl (fun c t =>
            c.insert (s0.get_key t) (zerosFrame s0.size.2 s0.size.1)) cache } := by
  intro ts
  induction ts with
  | nil => intro cache _ _; rfl
  | cons t ts ih =>
    intro cache hfresh hnd
    have hmiss : (({ s0 with cache := cache } : Composition)).cache.getTouch
        ((({ s0 with cache := cache } : Composition)).get_key t) = none := by
      simp only [Composition.cacheUpdate_cache, Composition.cacheUpdate_get_key]
      exact LRUCache.getTouch_none_of_contains_false (hfresh t (by simp))
    have hnone2 : ∀ c ∈ ({ s0 with cache := cache } : Composition).layers,
        ∀ u : ℚ, c.layer.render u = none := by
      simp only [Composition.cacheUpdate_layers]
      exact hnone
    have hcall := call_of_render_none hnone2 hmiss
    unfold Composition.renderAll
    rw [List.foldl_cons, List.foldl_cons, hcall]
    simp only [Composition.cacheUpdate_cacheUpdate, Composition.cacheUpdate_cache,
      Composition.cacheUpdate_get_key, Composition.cacheUpdate_size]
    have hfresh2 : ∀ t' ∈ ts,
        (cache.insert (s0.get_key t) (zerosFrame s0.size.2 s0.size.1)).contains
          (s0.get_key t') = false := by
      intro t' ht'
      cases hcon : (cache.insert (s0.get_key t)
          (zerosFrame s0.size.2 s0.size.1)).contains (s0.get_key t') with
      | false => rfl
      | true =>
        exfalso
        rcases LRUCache.contains_insert_of hcon with heq | hold
        · exact (List.nodup_cons.mp hnd).1 (heq ▸ List.mem_map_of_mem _ ht')
        · rw [hfresh t' (by simp [ht'])] at hold
          exact absurd hold (by simp)
    have hnd2 : (ts.map s0.get_key).Nodup := (List.nodup_cons.mp hnd).2
    have := ih (cache.insert (s0.get_key t) (zerosFrame s0.size.2 s0.size.1))
      hfresh2 hnd2
    unfold Composition.renderAll at this
    exact this

/-- C6: with the cache empty at its construction capacity of 128 and 129
renders at times whose composition keys are pairwise distinct (the Layers
contributing no resize-cache entries, so exactly one whole-frame key is
inserted per render), the first key — the least recently used — is the one
evicted while all 128 later keys remain cached, and a subsequent render at
the evicted key misses the cache and recomputes the frame. -/
theorem c6_lru_eviction (s : Composition) (t0 : ℚ) (ts : List ℚ)
    (hnone : ∀ c ∈ s.layers, ∀ u : ℚ, c.layer.render u = none)
    (hcache : s.cache = ⟨128, []⟩)
    (hlen : ts.length = 128)
    (hnodup : ((t0 :: ts).map s.get_key).Nodup) :
    (s.renderAll (t0 :: ts)).cache.contains (s.get_key t0) = false ∧
    (∀ t ∈ ts, (s.renderAll (t0 :: ts)).cache.contains (s.get_key t) = true) ∧
    ((s.renderAll (t0 :: ts)).call t0).1
      = some (((s.renderAll (t0 :: ts)).compositeAll
          (zerosFrame (s.renderAll (t0 :: ts)).size.2
            (s.renderAll (t0 :: ts)).size.1) t0).1) := by
  have hs : ({ s with cache := (⟨128, []⟩ : LRUCache) } : Composition) = s := by
    rw [← hcache]
  have hra := renderAll_of_render_none s hnone (t0 :: ts) ⟨128, []⟩
    (fun t _ => rfl) hnodup
  rw [hs] at hra
  have hfold := foldl_insert_fresh 128 (by norm_num)
    (zerosFrame s.size.2 s.size.1) ((t0 :: ts).map s.get_key) hnodup
  rw [List.foldl_map] at hfold
  have h128 : ((ts.map s.get_key).reverse).length = 128 := by simp [hlen]
  have htake : (((t0 :: ts).map s.get_key).reverse).take 128
      = (ts.map s.get_key).reverse := by
    rw [List.map_cons, List.reverse_cons]
    conv_lhs => rw [← h128]
    exact List.take_left _ _
  have hmapfst : ((t0 :: ts).foldl (fun c t =>
      c.insert (s.get_key t) (zerosFrame s.size.2 s.size.1))
      (⟨128, []⟩ : LRUCache)).items.map Prod.fst = (ts.map s.get_key).reverse := by
    rw [hfold.2, htake]
  have hcon1 : (s.renderAll (t0 :: ts)).cache.contains (s.get_key t0) = false := by
    rw [hra]
    simp only [Composition.cacheUpdate_cache]
    cases hcon : ((t0 :: ts).foldl (fun c t =>
        c.insert (s.get_key t) (zerosFrame s.size.2 s.size.1))
        (⟨128, []⟩ : LRUCache)).contains (s.get_key t0) with
    | false => rfl
    | true =>
      exfalso
      have hmem := LRUCache.contains_iff_mem.mp hcon
      rw [hmapfst, List.mem_reverse] at hmem
      exact (List.nodup_cons.mp (by simpa using hnodup)).1 hmem
  refine ⟨hcon1, ?_, ?_⟩
  · intro t ht
    rw [hra]
    simp only [Composition.cacheUpdate_cache]
    apply LRUCache.contains_iff_mem.mpr
    rw [hmapfst, List.mem_reverse]
    exact List.mem_map_of_mem _ ht
  · have hkey : (s.renderAll (t0 :: ts)).get_key t0 = s.get_key t0 := by
      rw [hra]
      simp
    have hmiss : (s.renderAll (t0 :: ts)).cache.getTouch
        ((s.renderAll (t0 :: ts)).get_key t0) = none := by
      rw [hkey]
      exact LRUCache.getTouch_none_of_contains_false hcon1
    exact call_miss _ t0 hmiss

def c6_component : Component :=
  ⟨"v", noneLayer, Transform.ofPosition (2, 2), 0, 0, 1000000, true, .normal⟩

def c6_state : Composition :=
  ⟨[c6_component], [("v", c6_component)], (4, 4), 1000000, ⟨128, []⟩⟩

def c6_times : List ℚ := (List.range 128).map (fun i => ((i + 1 : ℕ) : ℚ))

theorem c6_state_get_key {t : ℚ} (h1 : 0 ≤ t) (h2 : t < 1000000) :
    c6_state.get_key t
      = PyKey.cons PyKey.compositionTag (PyKey.cons (PyKey.rat t) PyKey.nil) := by
  simp only [c6_state, Composition.get_key, List.map_cons, List.map_nil, PyKey.tup,
    List.foldr_cons, List.foldr_nil, c6_component, Component.get_key, noneLayer,
    sub_zero]
  rw [if_neg (by push_neg; exact ⟨h1, h2⟩)]

theorem c6_keys_nodup : (((0 : ℚ) :: c6_times).map c6_state.get_key).Nodup := by
  have hmap : ((0 : ℚ) :: c6_times).map c6_state.get_key
      = ((0 : ℚ) :: c6_times).map (fun t =>
          PyKey.cons PyKey.compositionTag (PyKey.cons (PyKey.rat t) PyKey.nil)) := by
    apply List.map_congr_left
    intro t ht
    rcases List.mem_cons.mp ht with rfl | ht
    · exact c6_state_get_key le_rfl (by norm_num)
    · simp only [c6_times, List.mem_map, List.mem_range] at ht
      obtain ⟨i, hi, rfl⟩ := ht
      refine c6_state_get_key (Nat.cast_nonneg _) ?_
      have hle : ((i + 1 : ℕ) : ℚ) ≤ 128 := by exact_mod_cast hi
      linarith
  rw [hmap]
  apply List.Nodup.map
  · intro a b hab
    simpa using hab
  · rw [List.nodup_cons]
    refine ⟨?_, ?_⟩
    · simp only [c6_times, List.mem_map, List.mem_range]
      rintro ⟨i, _, hi0⟩
      have : (i + 1 : ℕ) = 0 := by exact_mod_cast hi0
      omega
    · apply List.Nodup.map
      · intro a b hab
        have hab1 : ((a + 1 : ℕ) : ℚ) = ((b + 1 : ℕ) : ℚ) := hab
        have hab2 : (a + 1 : ℕ) = (b + 1 : ℕ) := by exact_mod_cast hab1
        omega
      · exact List.nodup_range _

theorem c6_lru_eviction_witness :
    (c6_state.renderAll ((0 : ℚ) :: c6_times)).cache.contains
        (c6_state.get_key 0) = false ∧
    (∀ t ∈ c6_times, (c6_state.renderAll ((0 : ℚ) :: c6_times)).cache.contains
        (c6_state.get_key t) = true) ∧
    ((c6_state.renderAll ((0 : ℚ) :: c6_times)).call 0).1
      = some (((c6_state.renderAll ((0 : ℚ) :: c6_times)).compositeAll
          (zerosFrame (c6_state.renderAll ((0 : ℚ) :: c6_times)).size.2
            (c6_state.renderAll ((0 : ℚ) :: c6_times)).size.1) 0).1) :=
  c6_lru_eviction c6_state 0 c6_times
    (by
      intro c hc u
      simp only [c6_state, List.mem_singleton] at hc
      subst hc
      rfl)
    rfl
    (by simp [c6_times])
    c6_keys_nodup

end Zunda
